import Mathlib

/-!
Shallow embedding of the financial time-series pipeline implemented by the
class `AnalizadorFinanciero` (file `proyecto_herramientas_de_programación.py`).

Modelling conventions:
* dates are `Nat` ordinals (a `DatetimeIndex` is an increasing sequence of
  dates; only their order and equality matter to the pipeline);
* prices/rates are `ℚ` (pandas floats modelled as exact rationals);
* a missing cell (`NaN`) is `none : Option ℚ`;
* a `DataFrame` of close prices is a `Table`: a column-label list plus
  date-indexed rows, each row holding one optional cell per column;
* the single-column rate frame `rate_df` is a `List (Nat × ℚ)` of
  (date, value) pairs (its rows are non-missing after `dropna`);
* errors raised with `raise ValueError(...)` are represented by the
  `Except` monad with one constructor per distinct raise site (named after
  the error taxonomy of the design document); the `ValueError` that pandas
  `Series.idxmax` raises on an all-missing column is `missingDataError`.
-/

/-- A date-indexed price table: one column label per symbol, and rows of
(date, cells) where cell `j` belongs to column `j`.  Mirrors the pandas
`DataFrame` held in `stocks_df`. -/
structure Table where
  cols : List String
  rows : List (Nat × List (Option ℚ))
deriving DecidableEq

/-- Errors raised by the ingestion / join stages (`raise ValueError` sites). -/
inductive DataError
  | emptyDataError
  | stocksEmptyError
deriving DecidableEq

/-- Error raised at summary time when a symbol's column is entirely missing
(pandas `Series.idxmax` raises `ValueError` on an all-NaN series). -/
inductive SummaryError
  | missingDataError (sym : String)
deriving DecidableEq

/-- `DataFrame.dropna(how="all")`: keep a row iff some cell is non-missing. -/
def dropnaAll (t : Table) : Table :=
  { cols := t.cols, rows := t.rows.filter (fun r => r.2.any (fun c => c.isSome)) }

/-- Comparison on the date key, used for `sort_index()`. -/
def fstLe {α : Type} (a b : Nat × α) : Prop := a.1 ≤ b.1

instance {α : Type} : DecidableRel (@fstLe α) := fun a b =>
  inferInstanceAs (Decidable (a.1 ≤ b.1))

instance {α : Type} : IsTotal (Nat × α) fstLe := ⟨fun a b => Nat.le_total a.1 b.1⟩

instance {α : Type} : IsTrans (Nat × α) fstLe := ⟨fun _ _ _ h₁ h₂ => Nat.le_trans h₁ h₂⟩

/-- `DataFrame.sort_index()`: sort the rows by date ascending. -/
def sortIndex (t : Table) : Table :=
  { cols := t.cols, rows := t.rows.insertionSort fstLe }

/-- `descargar_acciones`: validate a raw close-price table —
`data.dropna(how="all").sort_index()`, then
`raise ValueError(...)` if the result is empty, else store it. -/
def descargar_acciones (raw : Table) : Except DataError Table :=
  let data := sortIndex (dropnaAll raw)
  if data.rows.isEmpty then .error .emptyDataError else .ok data

/-- `descargar_tasa_interes`: if the raw `^TNX` download is empty, the rate
frame stays empty; otherwise take the close series, `dropna()`, divide by 10
and `sort_index()`. -/
def descargar_tasa_interes (raw : List (Nat × Option ℚ)) : List (Nat × ℚ) :=
  if raw.isEmpty then []
  else
    let dropped := raw.filterMap (fun p => p.2.map (fun x => (p.1, x)))
    let divided := dropped.map (fun p => (p.1, p.2 / 10))
    divided.insertionSort fstLe

/-- Index lookup used by the left join: the rate value at date `d`,
`none` when `d` is absent from the rate series. -/
def lookupRate (d : Nat) (r : List (Nat × ℚ)) : Option ℚ :=
  (r.find? (fun p => p.1 == d)).map Prod.snd

/-- `df.join(rate_df, how="left")`: keep every price row in order and attach
the rate value matching its date (missing marker when absent). -/
def joinLeft (t : Table) (r : List (Nat × ℚ)) : Table :=
  { cols := t.cols ++ ["US10Y"],
    rows := t.rows.map (fun row => (row.1, row.2 ++ [lookupRate row.1 r])) }

/-- One step of forward-fill across a row: cell `j` keeps its value when
non-missing, and otherwise takes `lasts[j]`, the most recent prior
non-missing value of column `j`.  The output row is also the updated
`lasts` vector for the next row. -/
def fillRow : List (Option ℚ) → List (Option ℚ) → List (Option ℚ)
  | _, [] => []
  | [], c :: cs => c :: fillRow [] cs
  | last :: ls, c :: cs => (if c.isSome then c else last) :: fillRow ls cs

/-- `DataFrame.ffill()` over the rows, threading the per-column
most-recent-non-missing vector `lasts`. -/
def ffillRows : List (Option ℚ) → List (Nat × List (Option ℚ)) → List (Nat × List (Option ℚ))
  | _, [] => []
  | lasts, (d, cs) :: rest =>
    let cs' := fillRow lasts cs
    (d, cs') :: ffillRows cs' rest

/-- `DataFrame.ffill()` on a table (initial `lasts` vector all missing). -/
def ffillTable (t : Table) : Table :=
  { cols := t.cols, rows := ffillRows (List.replicate t.cols.length none) t.rows }

/-- The pure core of `unir_datos`: join the rate series onto the price table
when the rate frame is non-empty (skip the join otherwise), then
forward-fill every column. -/
def unir_core (stocks : Table) (rate : List (Nat × ℚ)) : Table :=
  ffillTable (if rate.isEmpty then stocks else joinLeft stocks rate)

/-- Position of a symbol's column in the table. -/
def colIdx (t : Table) (sym : String) : Nat :=
  t.cols.findIdx (fun c => c = sym)

/-- Column `j` of a row list, as the list of its cells. -/
def getColIdx (j : Nat) (rows : List (Nat × List (Option ℚ))) : List (Option ℚ) :=
  rows.map (fun r => r.2.getD j none)

/-- The (date, cell) series `stocks_df[sym]`. -/
def seriesOf (t : Table) (sym : String) : List (Nat × Option ℚ) :=
  t.rows.map (fun r => (r.1, r.2.getD (colIdx t sym) none))

/-- The cells of column `sym`, without dates. -/
def cellsOf (t : Table) (sym : String) : List (Option ℚ) :=
  (seriesOf t sym).map Prod.snd

/-- `Series.max()`: maximum over the non-missing cells, `NaN` (here `none`)
when every cell is missing. -/
def colMax (cells : List (Option ℚ)) : Option ℚ :=
  match cells.filterMap id with
  | [] => none
  | v :: vs => some (vs.foldl max v)

/-- `Series.mean()`: arithmetic mean of the non-missing cells, `NaN`
(here `none`) when every cell is missing. -/
def colMean (cells : List (Option ℚ)) : Option ℚ :=
  match cells.filterMap id with
  | [] => none
  | v :: vs => some (((v :: vs).sum) / (v :: vs).length)

/-- Argmax scan: current best (date, value) against the remaining series;
the best is replaced only on a strictly greater value, so the first (hence,
on a date-sorted series, earliest-dated) maximum is kept — pandas
`Series.idxmax` first-occurrence semantics. -/
def idxmaxAux : Nat × ℚ → List (Nat × Option ℚ) → Nat × ℚ
  | p, [] => p
  | p, (_, none) :: rest => idxmaxAux p rest
  | p, (d', some v) :: rest =>
    if p.2 < v then idxmaxAux (d', v) rest else idxmaxAux p rest

/-- `Series.idxmax()` on the (date, cell) series of `sym`: skip missing
cells; raise (`ValueError`, i.e. the design's `MissingDataError`) when the
whole column is missing. -/
def colIdxmax (sym : String) : List (Nat × Option ℚ) → Except SummaryError Nat
  | [] => .error (.missingDataError sym)
  | (_, none) :: rest => colIdxmax sym rest
  | (d, some v) :: rest => .ok (idxmaxAux (d, v) rest).1

/-- Except-valued map over a list, failing at the first error — the
behaviour of a Python list comprehension whose body may raise. -/
def mapExcept {α β ε : Type} (f : α → Except ε β) : List α → Except ε (List β)
  | [] => .ok []
  | a :: l =>
    match f a with
    | .error e => .error e
    | .ok b =>
      match mapExcept f l with
      | .error e => .error e
      | .ok bs => .ok (b :: bs)

/-- Body of the fourth comprehension: the (symbol, max, max-date) record of
one symbol (`(sym, df[sym].max(), df[sym].idxmax())`), raising when
`idxmax` does. -/
def recordOf (t : Table) (s : String) : Except SummaryError (String × Option ℚ × Nat) :=
  match colIdxmax s (seriesOf t s) with
  | .error e => .error e
  | .ok d => .ok (s, colMax (cellsOf t s), d)

/-- `resumen_list_comprehensions`: the four list comprehensions over
`self.symbols` — maxima, dates of maxima, means, and (symbol, max, date)
records.  The whole call raises as soon as one comprehension body raises
(`idxmax` on an all-missing column). -/
def resumen_list_comprehensions (symbols : List String) (t : Table) :
    Except SummaryError
      (List (Option ℚ) × List Nat × List (Option ℚ) ×
        List (String × Option ℚ × Nat)) :=
  let maximos := symbols.map (fun s => colMax (cellsOf t s))
  match mapExcept (fun s => colIdxmax s (seriesOf t s)) symbols with
  | .error e => .error e
  | .ok fechas_maximos =>
    let promedios := symbols.map (fun s => colMean (cellsOf t s))
    match mapExcept (fun s => recordOf t s) symbols with
    | .error e => .error e
    | .ok resumen_maximos => .ok (maximos, fechas_maximos, promedios, resumen_maximos)

/-- A column is entirely missing. -/
def allMissing (cells : List (Option ℚ)) : Bool :=
  cells.all (fun c => c.isNone)

/-- The most recent non-missing value in a scanned prefix, starting from a
running value `last`: scanning forward, each non-missing cell replaces the
running value. -/
def lastSome (last : Option ℚ) : List (Option ℚ) → Option ℚ
  | [] => last
  | none :: xs => lastSome last xs
  | some v :: xs => lastSome (some v) xs

/-!
Object-level model of the pipeline instance for the frame/immutability
claim.  Artifacts (the DataFrames produced by the stages) live on a heap of
locations; the instance fields `stocks_df` / `rate_df` hold locations.  A
Python statement `self.stocks_df = <new frame>` rebinds the field to a
freshly allocated location; it never overwrites an existing artifact.
-/

/-- A heap artifact: a price/aligned table or a rate series. -/
inductive Artifact
  | table (t : Table)
  | rateSeries (r : List (Nat × ℚ))
deriving DecidableEq

/-- The `AnalizadorFinanciero` instance state: the heap of artifacts
allocated so far, and the locations the fields `stocks_df` / `rate_df`
point to. -/
structure PState where
  heap : List Artifact
  stocksLoc : Nat
  rateLoc : Nat
deriving DecidableEq

/-- `__init__`: both fields hold fresh empty frames. -/
def initState : PState :=
  { heap := [.table { cols := [], rows := [] }, .rateSeries []],
    stocksLoc := 0, rateLoc := 1 }

/-- Stage 1, `descargar_acciones`, on the instance: validate the raw table
and rebind `stocks_df` to the freshly allocated validated table. -/
def m_descargar_acciones (raw : Table) (s : PState) : Except DataError PState :=
  match descargar_acciones raw with
  | .error e => .error e
  | .ok t =>
    .ok { heap := s.heap ++ [.table t], stocksLoc := s.heap.length, rateLoc := s.rateLoc }

/-- Stage 2, `descargar_tasa_interes`, on the instance: rebind `rate_df`
to the freshly allocated normalized rate series. -/
def m_descargar_tasa_interes (raw : List (Nat × Option ℚ)) (s : PState) : PState :=
  { heap := s.heap ++ [.rateSeries (descargar_tasa_interes raw)],
    stocksLoc := s.stocksLoc, rateLoc := s.heap.length }

/-- Stage 3, `unir_datos`, on the instance: read the two artifacts, raise if
the price table is empty, else allocate the joined-and-filled table
(`df = self.stocks_df.copy(); ... ; self.stocks_df = df.ffill()`) and
rebind `stocks_df` to it. -/
def m_unir_datos (s : PState) : Except DataError PState :=
  match s.heap.get? s.stocksLoc, s.heap.get? s.rateLoc with
  | some (.table st), some (.rateSeries r) =>
    if st.rows.isEmpty then .error .stocksEmptyError
    else
      .ok { heap := s.heap ++ [.table (unir_core st r)],
            stocksLoc := s.heap.length, rateLoc := s.rateLoc }
  | _, _ => .error .stocksEmptyError

/-! ### Helper lemmas -/

theorem length_ffillRows (lasts : List (Option ℚ)) (rows : List (Nat × List (Option ℚ))) :
    (ffillRows lasts rows).length = rows.length := by
  induction rows generalizing lasts with
  | nil => rfl
  | cons r rest ih =>
    obtain ⟨d, cs⟩ := r
    simp [ffillRows, ih]

theorem map_fst_ffillRows (lasts : List (Option ℚ)) (rows : List (Nat × List (Option ℚ))) :
    (ffillRows lasts rows).map Prod.fst = rows.map Prod.fst := by
  induction rows generalizing lasts with
  | nil => rfl
  | cons r rest ih =>
    obtain ⟨d, cs⟩ := r
    simp [ffillRows, ih]

theorem sorted_map_fst_of_sorted_fstLe {α : Type} {l : List (Nat × α)}
    (h : List.Sorted fstLe l) : List.Sorted (· ≤ ·) (l.map Prod.fst) :=
  h.map Prod.fst (fun _ _ hab => hab)

/-! ### C1 — ingest: empty-after-filter check and sorting -/

/-- C1: if, after dropping rows in which every symbol's value is missing, the
validated price table has zero rows, `descargar_acciones` fails with the
empty-data error; for every input leaving at least one row, no error is
raised and the sorted table is produced. -/
theorem C1_ingest_empty_or_sorted (raw : Table) :
    ((dropnaAll raw).rows = [] → descargar_acciones raw = .error .emptyDataError) ∧
    ((dropnaAll raw).rows ≠ [] →
      descargar_acciones raw = .ok (sortIndex (dropnaAll raw)) ∧
      List.Sorted fstLe (sortIndex (dropnaAll raw)).rows) := by
  constructor
  · intro h
    simp [descargar_acciones, sortIndex, h, List.insertionSort]
  · intro h
    have hne : (sortIndex (dropnaAll raw)).rows ≠ [] := by
      simp only [sortIndex]
      intro hnil
      apply h
      have hlen := (List.perm_insertionSort fstLe (dropnaAll raw).rows).length_eq
      rw [hnil] at hlen
      exact List.eq_nil_of_length_eq_zero hlen.symm
    refine ⟨?_, List.sorted_insertionSort fstLe _⟩
    simp [descargar_acciones, sortIndex, List.isEmpty_iff] at hne ⊢
    simp [hne]

def exRawC1 : Table := { cols := ["A"], rows := [(0, [some 1])] }

/-- Witness for C1 at a concrete one-row table. -/
theorem C1_witness :
    (dropnaAll exRawC1).rows ≠ [] ∧
    descargar_acciones exRawC1 = .ok (sortIndex (dropnaAll exRawC1)) :=
  ⟨by decide, ((C1_ingest_empty_or_sorted exRawC1).2 (by decide)).1⟩

/-! ### C6 — rate normalization: exact division by 10, dropna, sort -/

/-- C6: every non-missing raw rate entry appears in the output divided by 10
exactly, every output entry arises that way (missing entries are dropped),
and the output is sorted by date ascending. -/
theorem C6_rate_normalized (raw : List (Nat × Option ℚ)) :
    (∀ d x, (d, some x) ∈ raw → (d, x / 10) ∈ descargar_tasa_interes raw) ∧
    (∀ d y, (d, y) ∈ descargar_tasa_interes raw → ∃ x, (d, some x) ∈ raw ∧ y = x / 10) ∧
    List.Sorted (· ≤ ·) ((descargar_tasa_interes raw).map Prod.fst) := by
  by_cases hraw : raw.isEmpty
  · obtain rfl := List.isEmpty_iff.mp hraw
    refine ⟨by simp, by simp [descargar_tasa_interes], by simp [descargar_tasa_interes]⟩
  · have hmem : ∀ z : Nat × ℚ, z ∈ descargar_tasa_interes raw ↔
        ∃ x, (z.1, some x) ∈ raw ∧ z.2 = x / 10 := by
      intro z
      simp only [descargar_tasa_interes, if_neg hraw, List.mem_insertionSort,
        List.mem_map, List.mem_filterMap, Option.map_eq_some']
      constructor
      · rintro ⟨p, ⟨a, ha, x, hax, rfl⟩, rfl⟩
        exact ⟨x, by simpa [← hax] using ha, rfl⟩
      · rintro ⟨x, hx, hz⟩
        exact ⟨(z.1, x), ⟨(z.1, some x), hx, x, rfl, rfl⟩, by
          cases z; simp at hz ⊢; exact hz.symm ▸ rfl⟩
    refine ⟨?_, ?_, ?_⟩
    · intro d x hdx
      exact (hmem (d, x / 10)).mpr ⟨x, hdx, rfl⟩
    · intro d y hdy
      exact (hmem (d, y)).mp hdy
    · apply sorted_map_fst_of_sorted_fstLe
      simp only [descargar_tasa_interes, if_neg hraw]
      exact List.sorted_insertionSort fstLe _

/-- Witness for C6 at a concrete one-entry raw series. -/
theorem C6_witness : (0, (20:ℚ) / 10) ∈ descargar_tasa_interes [(0, some 20)] :=
  (C6_rate_normalized [(0, some 20)]).1 0 20 (by decide)

/-! ### C7 — empty rate series degrades gracefully -/

/-- C7: an empty raw rate input yields an empty rate series (not a failure),
and the aligner with an empty rate series performs no join: the rate column
is absent, the instrument columns are kept, and the row count is kept. -/
theorem C7_empty_rate_no_join (stocks : Table) (hUS : "US10Y" ∉ stocks.cols) :
    descargar_tasa_interes [] = [] ∧
    unir_core stocks [] = ffillTable stocks ∧
    (unir_core stocks []).cols = stocks.cols ∧
    "US10Y" ∉ (unir_core stocks []).cols ∧
    (unir_core stocks []).rows.length = stocks.rows.length := by
  refine ⟨rfl, rfl, rfl, ?_, ?_⟩
  · simpa [unir_core, ffillTable] using hUS
  · simp [unir_core, ffillTable, length_ffillRows]

def exStC7 : Table := { cols := ["A"], rows := [(0, [some 1])] }

/-- Witness for C7 at a concrete one-column table. -/
theorem C7_witness :
    descargar_tasa_interes [] = [] ∧
    unir_core exStC7 [] = ffillTable exStC7 ∧
    (unir_core exStC7 []).cols = exStC7.cols ∧
    "US10Y" ∉ (unir_core exStC7 []).cols ∧
    (unir_core exStC7 []).rows.length = exStC7.rows.length :=
  C7_empty_rate_no_join exStC7 (by decide)

/-! ### C4 — the join is a left-join keyed by the price table -/

theorem getD_append_len {α : Type} (l : List α) (x d : α) :
    (l ++ [x]).getD l.length d = x := by
  induction l with
  | nil => rfl
  | cons a l ih => simp [ih]

/-- C4: the join keeps exactly the price-table rows in their order (so every
symbol column has as many rows as the validated price table and rate-only
dates are discarded), and the attached rate cell is the rate value at the
row's date, with the missing marker exactly at the price dates absent from
the rate series (before filling).  Forward-filling afterwards also keeps
the row count and date order. -/
theorem C4_left_join (stocks : Table) (rate : List (Nat × ℚ)) (hr : rate ≠ [])
    (hw : ∀ row ∈ stocks.rows, row.2.length = stocks.cols.length) :
    (joinLeft stocks rate).rows.length = stocks.rows.length ∧
    (joinLeft stocks rate).rows.map Prod.fst = stocks.rows.map Prod.fst ∧
    getColIdx stocks.cols.length (joinLeft stocks rate).rows =
      stocks.rows.map (fun row => lookupRate row.1 rate) ∧
    (∀ d, lookupRate d rate = none ↔ d ∉ rate.map Prod.fst) ∧
    (unir_core stocks rate).rows.length = stocks.rows.length ∧
    (unir_core stocks rate).rows.map Prod.fst = stocks.rows.map Prod.fst := by
  have hre : rate.isEmpty = false := by simp [List.isEmpty_iff, hr]
  refine ⟨by simp [joinLeft], by simp [joinLeft], ?_, ?_, ?_, ?_⟩
  · simp only [joinLeft, getColIdx, List.map_map]
    apply List.map_congr_left
    intro row hrow
    simp only [Function.comp]
    rw [← hw row hrow, getD_append_len]
  · intro d
    rw [lookupRate, Option.map_eq_none', List.find?_eq_none]
    constructor
    · intro h hd
      obtain ⟨p, hp, hpd⟩ := List.mem_map.mp hd
      exact h p hp (by simp [hpd])
    · intro h p hp
      simp only [beq_iff_eq]
      intro hpd
      exact h (List.mem_map.mpr ⟨p, hp, hpd⟩)
  · simp [unir_core, hre, ffillTable, length_ffillRows, joinLeft]
  · simp [unir_core, hre, ffillTable, map_fst_ffillRows, joinLeft]

def exStC4 : Table := { cols := ["A"], rows := [(0, [some 1]), (1, [some 2])] }

def exRateC4 : List (Nat × ℚ) := [(1, 3)]

/-- Witness for C4 at a concrete two-row table and one-entry rate series. -/
theorem C4_witness :
    (joinLeft exStC4 exRateC4).rows.length = exStC4.rows.length ∧
    (joinLeft exStC4 exRateC4).rows.map Prod.fst = exStC4.rows.map Prod.fst ∧
    getColIdx exStC4.cols.length (joinLeft exStC4 exRateC4).rows =
      exStC4.rows.map (fun row => lookupRate row.1 exRateC4) ∧
    (∀ d, lookupRate d exRateC4 = none ↔ d ∉ exRateC4.map Prod.fst) ∧
    (unir_core exStC4 exRateC4).rows.length = exStC4.rows.length ∧
    (unir_core exStC4 exRateC4).rows.map Prod.fst = exStC4.rows.map Prod.fst :=
  C4_left_join exStC4 exRateC4 (by decide) (by decide)

/-! ### C9 — no stage mutates a previously produced artifact -/

/-- C9: each pipeline stage only allocates a new artifact and rebinds its
own field: the heap entries existing before the stage ran are unchanged
afterwards.  In particular, after `unir_datos` runs, the validated price
table and the rate series (which live at locations below the old heap
length) still hold exactly the contents they were created with. -/
theorem C9_stages_preserve_artifacts :
    (∀ raw s s', m_descargar_acciones raw s = .ok s' →
      s'.heap.take s.heap.length = s.heap ∧ s'.rateLoc = s.rateLoc) ∧
    (∀ raw s, (m_descargar_tasa_interes raw s).heap.take s.heap.length = s.heap ∧
      (m_descargar_tasa_interes raw s).stocksLoc = s.stocksLoc) ∧
    (∀ s s', m_unir_datos s = .ok s' →
      s'.heap.take s.heap.length = s.heap ∧ s'.rateLoc = s.rateLoc ∧
      ∀ l, l < s.heap.length → s'.heap[l]? = s.heap[l]?) := by
  refine ⟨?_, ?_, ?_⟩
  · intro raw s s' h
    unfold m_descargar_acciones at h
    cases hd : descargar_acciones raw with
    | error e => rw [hd] at h; exact absurd h (by simp)
    | ok t =>
      rw [hd] at h
      obtain rfl : _ = s' := congrArg (fun x => match x with | .ok y => y | .error _ => s) h
      exact ⟨by simp, rfl⟩
  · intro raw s
    exact ⟨by simp [m_descargar_tasa_interes], rfl⟩
  · intro s s' h
    unfold m_unir_datos at h
    split at h
    · split at h
      · exact absurd h (by simp)
      · obtain rfl := Except.ok.inj h
        refine ⟨by simp, rfl, ?_⟩
        intro l hl
        exact List.getElem?_append_left hl
    · exact absurd h (by simp)

def exPSC9 : PState :=
  { heap := [.table { cols := ["A"], rows := [(0, [some 1])] }, .rateSeries []],
    stocksLoc := 0, rateLoc := 1 }

def exPSC9' : PState :=
  { heap := [.table { cols := ["A"], rows := [(0, [some 1])] }, .rateSeries [],
             .table { cols := ["A"], rows := [(0, [some 1])] }],
    stocksLoc := 2, rateLoc := 1 }

/-- Witness for C9: running the aligner stage on a concrete instance leaves
the previously produced artifacts untouched. -/
theorem C9_witness :
    m_unir_datos exPSC9 = .ok exPSC9' ∧
    exPSC9'.heap.take exPSC9.heap.length = exPSC9.heap :=
  ⟨rfl, (C9_stages_preserve_artifacts.2.2 exPSC9 exPSC9' rfl).1⟩

/-! ### C5 — forward-fill per column -/

/-- Forward-fill of a single column, threading the most recent non-missing
value `last`. -/
def ffillCol (last : Option ℚ) : List (Option ℚ) → List (Option ℚ)
  | [] => []
  | c :: cs =>
    (if c.isSome then c else last) :: ffillCol (if c.isSome then c else last) cs

theorem fillRow_getD (ls cs : List (Option ℚ)) (j : Nat) (hj : j < cs.length) :
    (fillRow ls cs).getD j none =
      if (cs.getD j none).isSome then cs.getD j none else ls.getD j none := by
  induction cs generalizing ls j with
  | nil => exact absurd hj (by simp)
  | cons c cs ih =>
    cases ls with
    | nil =>
      cases j with
      | zero => cases c <;> simp [fillRow]
      | succ j =>
        have hj' : j < cs.length := by simpa using hj
        simpa [fillRow] using ih [] j hj'
    | cons l ls =>
      cases j with
      | zero => cases c <;> simp [fillRow]
      | succ j =>
        have hj' : j < cs.length := by simpa using hj
        simpa [fillRow] using ih ls j hj'

theorem getColIdx_ffillRows (j : Nat) (lasts : List (Option ℚ))
    (rows : List (Nat × List (Option ℚ))) (hw : ∀ r ∈ rows, j < r.2.length) :
    getColIdx j (ffillRows lasts rows) = ffillCol (lasts.getD j none) (getColIdx j rows) := by
  induction rows generalizing lasts with
  | nil => rfl
  | cons r rest ih =>
    obtain ⟨d, cs⟩ := r
    have hj : j < cs.length := hw (d, cs) (by simp)
    have hhead := fillRow_getD lasts cs j hj
    have htail := ih (fillRow lasts cs) (fun r hr => hw r (List.mem_cons_of_mem _ hr))
    rw [hhead] at htail
    simp only [ffillRows, getColIdx, List.map_cons] at htail ⊢
    rw [ffillCol]
    exact congrArg₂ (· :: ·) hhead htail

theorem ffillCol_getD (last : Option ℚ) (col : List (Option ℚ)) (i : Nat)
    (hi : i < col.length) :
    (ffillCol last col).getD i none =
      if (col.getD i none).isSome then col.getD i none
      else lastSome last (col.take i) := by
  induction col generalizing last i with
  | nil => exact absurd hi (by simp)
  | cons c cs ih =>
    cases i with
    | zero => cases c <;> simp [ffillCol, lastSome]
    | succ i =>
      have hi' : i < cs.length := by simpa using hi
      have := ih (if c.isSome then c else last) i hi'
      cases c with
      | none => simpa [ffillCol, lastSome] using this
      | some v => simpa [ffillCol, lastSome] using this

theorem lastSome_or (last : Option ℚ) (pre : List (Option ℚ)) :
    lastSome last pre = (pre.reverse.filterMap id).head?.or last := by
  induction pre generalizing last with
  | nil => simp [lastSome]
  | cons c cs ih =>
    cases c with
    | none => simp [lastSome, List.filterMap_append, ih]
    | some v =>
      show lastSome (some v) cs = _
      rw [ih (some v), List.reverse_cons, List.filterMap_append, List.head?_append]
      have h1 : (List.filterMap id [some v]).head? = some v := rfl
      rw [h1]
      generalize (List.filterMap id cs.reverse).head? = a
      cases a <;> cases last <;> rfl

/-- C5: forward-fill acts on every column independently: column `j` of the
filled table is the forward-fill of column `j`, under which a non-missing
cell is unchanged and a missing cell becomes the most recent prior
non-missing cell of the same column — `none` (still missing) for a leading
gap, since no prior non-missing value exists. -/
theorem C5_forward_fill_per_column (t : Table)
    (hw : ∀ r ∈ t.rows, r.2.length = t.cols.length) (j : Nat) (hj : j < t.cols.length) :
    getColIdx j (ffillTable t).rows = ffillCol none (getColIdx j t.rows) ∧
    ∀ i, i < (getColIdx j t.rows).length →
      (ffillCol none (getColIdx j t.rows)).getD i none =
        if ((getColIdx j t.rows).getD i none).isSome then (getColIdx j t.rows).getD i none
        else (((getColIdx j t.rows).take i).reverse.filterMap id).head? := by
  constructor
  · have hrepl : (List.replicate t.cols.length (none : Option ℚ)).getD j none = none := by
      cases Nat.lt_or_ge j t.cols.length with
      | inl h => simp [List.getD_eq_getElem?_getD, List.getElem?_replicate, h]
      | inr h => simp [List.getD_eq_getElem?_getD, List.getElem?_eq_none, h]
    have := getColIdx_ffillRows j (List.replicate t.cols.length none) t.rows
      (fun r hr => by rw [hw r hr]; exact hj)
    rw [hrepl] at this
    simpa [ffillTable] using this
  · intro i hi
    have := ffillCol_getD none (getColIdx j t.rows) i hi
    simpa [lastSome_or] using this

def exTC5 : Table := { cols := ["X"], rows := [(0, [none]), (1, [some 2]), (2, [none])] }

/-- Witness for C5 at a concrete column with a leading gap. -/
theorem C5_witness :
    getColIdx 0 (ffillTable exTC5).rows = ffillCol none (getColIdx 0 exTC5.rows) :=
  (C5_forward_fill_per_column exTC5 (by decide) 0 (by decide)).1

/-! ### C2 — summary fails exactly on entirely-missing columns -/

theorem mapExcept_ok_of_forall {α β ε : Type} (f : α → Except ε β) :
    ∀ l : List α, (∀ a ∈ l, ∃ b, f a = .ok b) → ∃ bs, mapExcept f l = .ok bs := by
  intro l
  induction l with
  | nil => exact fun _ => ⟨[], rfl⟩
  | cons a l ih =>
    intro h
    obtain ⟨b, hb⟩ := h a (by simp)
    obtain ⟨bs, hbs⟩ := ih (fun x hx => h x (List.mem_cons_of_mem _ hx))
    exact ⟨b :: bs, by simp [mapExcept, hb, hbs]⟩

theorem mapExcept_first_error {α β ε : Type} (f : α → Except ε β) (g : α → Bool) (e : α → ε)
    (hok : ∀ a, g a = false → ∃ b, f a = .ok b)
    (herr : ∀ a, g a = true → f a = .error (e a)) :
    ∀ l : List α, (∃ a ∈ l, g a = true) →
      ∃ a ∈ l, g a = true ∧ mapExcept f l = .error (e a) := by
  intro l
  induction l with
  | nil =>
    rintro ⟨a, ha, _⟩
    exact absurd ha (by simp)
  | cons a l ih =>
    intro hex
    by_cases hga : g a = true
    · exact ⟨a, by simp, hga, by simp [mapExcept, herr a hga]⟩
    · have hga' : g a = false := by simpa using hga
      obtain ⟨b, hb⟩ := hok a hga'
      have hex' : ∃ x ∈ l, g x = true := by
        obtain ⟨x, hx, hgx⟩ := hex
        rcases List.mem_cons.mp hx with rfl | hx'
        · exact absurd hgx hga
        · exact ⟨x, hx', hgx⟩
      obtain ⟨x, hx, hgx, hmx⟩ := ih hex'
      exact ⟨x, List.mem_cons_of_mem _ hx, hgx, by simp [mapExcept, hb, hmx]⟩

theorem colIdxmax_error_of_allMissing (sym : String) :
    ∀ col : List (Nat × Option ℚ), (∀ p ∈ col, p.2 = none) →
      colIdxmax sym col = .error (.missingDataError sym) := by
  intro col
  induction col with
  | nil => exact fun _ => rfl
  | cons p rest ih =>
    intro h
    obtain ⟨d, c⟩ := p
    have hc : c = none := h (d, c) (by simp)
    subst hc
    exact ih (fun q hq => h q (List.mem_cons_of_mem _ hq))

theorem colIdxmax_ok_of_some (sym : String) :
    ∀ col : List (Nat × Option ℚ), (∃ p ∈ col, p.2.isSome) →
      ∃ d, colIdxmax sym col = .ok d := by
  intro col
  induction col with
  | nil =>
    rintro ⟨p, hp, _⟩
    exact absurd hp (by simp)
  | cons p rest ih =>
    intro hex
    obtain ⟨d, c⟩ := p
    cases c with
    | some v => exact ⟨(idxmaxAux (d, v) rest).1, rfl⟩
    | none =>
      have hex' : ∃ q ∈ rest, q.2.isSome := by
        obtain ⟨q, hq, hqs⟩ := hex
        rcases List.mem_cons.mp hq with rfl | hq'
        · simp at hqs
        · exact ⟨q, hq', hqs⟩
      exact ih hex'

theorem allMissing_true_iff (t : Table) (s : String) :
    allMissing (cellsOf t s) = true ↔ ∀ p ∈ seriesOf t s, p.2 = none := by
  simp only [allMissing, cellsOf, List.all_eq_true, List.mem_map,
    Option.isNone_iff_eq_none]
  constructor
  · intro h p hp
    exact h p.2 ⟨p, hp, rfl⟩
  · rintro h c ⟨p, hp, rfl⟩
    exact h p hp

theorem allMissing_false_iff (t : Table) (s : String) :
    allMissing (cellsOf t s) = false ↔ ∃ p ∈ seriesOf t s, p.2.isSome := by
  rw [← Bool.not_eq_true, allMissing_true_iff]
  push_neg
  constructor
  · rintro ⟨p, hp, hpn⟩
    exact ⟨p, hp, Option.isSome_iff_ne_none.mpr hpn⟩
  · rintro ⟨p, hp, hps⟩
    exact ⟨p, hp, Option.isSome_iff_ne_none.mp hps⟩

/-- C2: if some symbol's column in the dataset is entirely missing, the
summary fails with the missing-data error for such a symbol; if every
symbol's column has at least one non-missing value, the summary computes
its four outputs without error. -/
theorem C2_summary_missing_column (syms : List String) (t : Table) :
    ((∃ s ∈ syms, allMissing (cellsOf t s) = true) →
      ∃ s ∈ syms, allMissing (cellsOf t s) = true ∧
        resumen_list_comprehensions syms t = .error (.missingDataError s)) ∧
    ((∀ s ∈ syms, allMissing (cellsOf t s) = false) →
      ∃ out, resumen_list_comprehensions syms t = .ok out) := by
  have hok : ∀ s : String, allMissing (cellsOf t s) = false →
      ∃ b, colIdxmax s (seriesOf t s) = .ok b := by
    intro s hs
    exact colIdxmax_ok_of_some s _ ((allMissing_false_iff t s).mp hs)
  constructor
  · intro hex
    have herr : ∀ s : String, allMissing (cellsOf t s) = true →
        colIdxmax s (seriesOf t s) = .error (SummaryError.missingDataError s) := by
      intro s hs
      exact colIdxmax_error_of_allMissing s _ ((allMissing_true_iff t s).mp hs)
    obtain ⟨s, hsm, hst, hmap⟩ := mapExcept_first_error
      (fun s => colIdxmax s (seriesOf t s)) (fun s => allMissing (cellsOf t s))
      (fun s => SummaryError.missingDataError s) hok herr syms hex
    exact ⟨s, hsm, hst, by simp [resumen_list_comprehensions, hmap]⟩
  · intro hall
    have h1 : ∀ s ∈ syms, ∃ b, colIdxmax s (seriesOf t s) = .ok b :=
      fun s hs => hok s (hall s hs)
    obtain ⟨fechas, hf⟩ := mapExcept_ok_of_forall _ syms h1
    have h2 : ∀ s ∈ syms, ∃ b, recordOf t s = .ok b := by
      intro s hs
      obtain ⟨d, hd⟩ := h1 s hs
      exact ⟨(s, colMax (cellsOf t s), d), by simp [recordOf, hd]⟩
    obtain ⟨rm, hrm⟩ := mapExcept_ok_of_forall _ syms h2
    refine ⟨(syms.map (fun s => colMax (cellsOf t s)), fechas,
      syms.map (fun s => colMean (cellsOf t s)), rm), ?_⟩
    simp [resumen_list_comprehensions, hf, hrm]

def exTC2 : Table := { cols := ["A"], rows := [(0, [none])] }

/-- Witness for C2 at a concrete dataset whose only column is all-missing. -/
theorem C2_witness :
    ∃ s ∈ ["A"], allMissing (cellsOf exTC2 s) = true ∧
      resumen_list_comprehensions ["A"] exTC2 = .error (.missingDataError s) :=
  (C2_summary_missing_column ["A"] exTC2).1 ⟨"A", by decide, by decide⟩

/-! ### C8 — mean ignores missing cells -/

/-- C8: the means returned by the summary are the per-symbol column means;
for any column with at least one non-missing cell the mean `m` satisfies
`m * count = sum` over the non-missing cells only; and the column
[10, missing, 20] yields mean 15. -/
theorem C8_mean_ignores_missing :
    (∀ syms t maxs fechas proms rms,
      resumen_list_comprehensions syms t = .ok (maxs, fechas, proms, rms) →
      proms = syms.map (fun s => colMean (cellsOf t s))) ∧
    (∀ cells : List (Option ℚ), cells.filterMap id ≠ [] →
      ∃ m, colMean cells = some m ∧
        m * ((cells.filterMap id).length : ℚ) = (cells.filterMap id).sum) ∧
    colMean [some 10, none, some 20] = some 15 := by
  refine ⟨?_, ?_, ?_⟩
  · intro syms t maxs fechas proms rms h
    unfold resumen_list_comprehensions at h
    split at h
    · exact absurd h (by simp)
    · split at h
      · exact absurd h (by simp)
      · have := Except.ok.inj h
        exact (congrArg (fun q => q.2.2.1) this).symm
  · intro cells hne
    cases hfm : cells.filterMap id with
    | nil => exact absurd hfm hne
    | cons v vs =>
      have hmean : colMean cells = some ((v :: vs).sum / ((v :: vs).length : ℚ)) := by
        unfold colMean
        rw [hfm]
      have hlen : (((v :: vs).length : ℕ) : ℚ) ≠ 0 := Nat.cast_ne_zero.mpr (by simp)
      refine ⟨(v :: vs).sum / ((v :: vs).length : ℚ), hmean, ?_⟩
      exact div_mul_cancel₀ _ hlen
  · have h1 : colMean [some 10, none, some 20] =
        some (((10:ℚ) + (20 + 0)) / ((2:ℕ) : ℚ)) := rfl
    rw [h1]
    norm_num

/-- Witness for C8 at the column [10, missing, 20]. -/
theorem C8_witness :
    ∃ m, colMean [some (10:ℚ), none, some 20] = some m ∧
      m * (([some (10:ℚ), none, some 20].filterMap id).length : ℚ) =
        ([some (10:ℚ), none, some 20].filterMap id).sum :=
  C8_mean_ignores_missing.2.1 [some 10, none, some 20] (by decide)

/-! ### C3 — argmax date: maximum attained, earliest on ties -/

theorem idxmaxAux_spec :
    ∀ (rest : List (Nat × Option ℚ)) (p : Nat × ℚ),
      ((rest.map Prod.fst).Pairwise (· < ·)) →
      (∀ d ∈ rest.map Prod.fst, p.1 < d) →
      p.2 ≤ (idxmaxAux p rest).2 ∧
      (∀ d v, (d, some v) ∈ rest → v ≤ (idxmaxAux p rest).2) ∧
      (idxmaxAux p rest = p ∨
        (p.2 < (idxmaxAux p rest).2 ∧
          ((idxmaxAux p rest).1, some (idxmaxAux p rest).2) ∈ rest)) ∧
      (p.2 = (idxmaxAux p rest).2 → (idxmaxAux p rest).1 ≤ p.1) ∧
      (∀ d v, (d, some v) ∈ rest → v = (idxmaxAux p rest).2 →
        (idxmaxAux p rest).1 ≤ d) := by
  intro rest
  induction rest with
  | nil =>
    intro p _ _
    exact ⟨le_refl _, by simp, Or.inl rfl, fun _ => le_refl _, by simp⟩
  | cons q rest ih =>
    intro p hsort hp
    obtain ⟨d₀, c₀⟩ := q
    have hsort' : (rest.map Prod.fst).Pairwise (· < ·) :=
      (List.pairwise_cons.mp hsort).2
    have hd₀ : ∀ d ∈ rest.map Prod.fst, d₀ < d :=
      (List.pairwise_cons.mp hsort).1
    have hp₀ : p.1 < d₀ := hp d₀ (by simp)
    have hp' : ∀ d ∈ rest.map Prod.fst, p.1 < d :=
      fun d hd => lt_trans hp₀ (hd₀ d hd)
    cases c₀ with
    | none =>
      have hrec := ih p hsort' hp'
      obtain ⟨ha, hb, hc, hd, he⟩ := hrec
      have heq : idxmaxAux p ((d₀, none) :: rest) = idxmaxAux p rest := rfl
      rw [heq]
      refine ⟨ha, ?_, ?_, hd, ?_⟩
      · intro d v hdv
        rcases List.mem_cons.mp hdv with h | h
        · exact absurd h (by simp)
        · exact hb d v h
      · rcases hc with h | ⟨h1, h2⟩
        · exact Or.inl h
        · exact Or.inr ⟨h1, List.mem_cons_of_mem _ h2⟩
      · intro d v hdv hv
        rcases List.mem_cons.mp hdv with h | h
        · exact absurd h (by simp)
        · exact he d v h hv
    | some v₀ =>
      by_cases hlt : p.2 < v₀
      · have hrec := ih (d₀, v₀) hsort' hd₀
        obtain ⟨ha, hb, hc, hd, he⟩ := hrec
        have heq : idxmaxAux p ((d₀, some v₀) :: rest) = idxmaxAux (d₀, v₀) rest := by
          simp [idxmaxAux, hlt]
        rw [heq]
        have hav : v₀ ≤ (idxmaxAux (d₀, v₀) rest).2 := ha
        refine ⟨le_of_lt (lt_of_lt_of_le hlt hav), ?_, ?_, ?_, ?_⟩
        · intro d v hdv
          rcases List.mem_cons.mp hdv with h | h
          · obtain ⟨h1, h2⟩ := Prod.mk.injEq .. ▸ h
            obtain rfl := Option.some.inj h2
            exact hav
          · exact hb d v h
        · refine Or.inr ⟨lt_of_lt_of_le hlt hav, ?_⟩
          rcases hc with h | ⟨_, h2⟩
          · rw [h]; exact List.mem_cons_self _ _
          · exact List.mem_cons_of_mem _ h2
        · intro hpr
          exact absurd (lt_of_lt_of_le hlt hav) (by rw [← hpr]; exact lt_irrefl _)
        · intro d v hdv hv
          rcases List.mem_cons.mp hdv with h | h
          · obtain ⟨h1, h2⟩ := Prod.mk.injEq .. ▸ h
            obtain rfl := Option.some.inj h2
            subst h1
            exact hd hv
          · exact he d v h hv
      · have hrec := ih p hsort' hp'
        obtain ⟨ha, hb, hc, hd, he⟩ := hrec
        have hle : v₀ ≤ p.2 := le_of_not_lt hlt
        have heq : idxmaxAux p ((d₀, some v₀) :: rest) = idxmaxAux p rest := by
          simp [idxmaxAux, hlt]
        rw [heq]
        refine ⟨ha, ?_, ?_, hd, ?_⟩
        · intro d v hdv
          rcases List.mem_cons.mp hdv with h | h
          · obtain ⟨h1, h2⟩ := Prod.mk.injEq .. ▸ h
            obtain rfl := Option.some.inj h2
            exact le_trans hle ha
          · exact hb d v h
        · rcases hc with h | ⟨h1, h2⟩
          · exact Or.inl h
          · exact Or.inr ⟨h1, List.mem_cons_of_mem _ h2⟩
        · intro d v hdv hv
          rcases List.mem_cons.mp hdv with h | h
          · obtain ⟨h1, h2⟩ := Prod.mk.injEq .. ▸ h
            obtain rfl := Option.some.inj h2
            subst h1
            have hpeq : p.2 = (idxmaxAux p rest).2 :=
              le_antisymm ha (hv ▸ hle)
            exact le_of_lt (lt_of_le_of_lt (hd hpeq) hp₀)
          · exact he d v h hv

theorem colIdxmax_spec (sym : String) :
    ∀ col : List (Nat × Option ℚ),
      ((col.map Prod.fst).Pairwise (· < ·)) →
      (∃ p ∈ col, p.2.isSome) →
      ∃ d m, colIdxmax sym col = .ok d ∧ (d, some m) ∈ col ∧
        (∀ d' v', (d', some v') ∈ col → v' ≤ m) ∧
        (∀ d', (d', some m) ∈ col → d ≤ d') := by
  intro col
  induction col with
  | nil =>
    rintro _ ⟨p, hp, _⟩
    exact absurd hp (by simp)
  | cons q rest ih =>
    intro hsort hex
    obtain ⟨d₀, c₀⟩ := q
    have hsort' : (rest.map Prod.fst).Pairwise (· < ·) :=
      (List.pairwise_cons.mp hsort).2
    have hd₀ : ∀ d ∈ rest.map Prod.fst, d₀ < d :=
      (List.pairwise_cons.mp hsort).1
    cases c₀ with
    | none =>
      have hex' : ∃ p ∈ rest, p.2.isSome := by
        obtain ⟨p, hp, hps⟩ := hex
        rcases List.mem_cons.mp hp with rfl | hp'
        · simp at hps
        · exact ⟨p, hp', hps⟩
      obtain ⟨d, m, hok, hmem, hub, hearly⟩ := ih hsort' hex'
      refine ⟨d, m, hok, List.mem_cons_of_mem _ hmem, ?_, ?_⟩
      · intro d' v' hd'
        rcases List.mem_cons.mp hd' with h | h
        · exact absurd h (by simp)
        · exact hub d' v' h
      · intro d' hd'
        rcases List.mem_cons.mp hd' with h | h
        · exact absurd h (by simp)
        · exact hearly d' h
    | some v₀ =>
      obtain ⟨ha, hb, hc, hd, he⟩ := idxmaxAux_spec rest (d₀, v₀) hsort' hd₀
      refine ⟨(idxmaxAux (d₀, v₀) rest).1, (idxmaxAux (d₀, v₀) rest).2, rfl, ?_, ?_, ?_⟩
      · rcases hc with h | ⟨_, h2⟩
        · rw [h]
          exact List.mem_cons_self _ _
        · exact List.mem_cons_of_mem _ h2
      · intro d' v' hd'
        rcases List.mem_cons.mp hd' with h | h
        · obtain ⟨h1, h2⟩ := Prod.mk.injEq .. ▸ h
          obtain rfl := Option.some.inj h2
          exact ha
        · exact hb d' v' h
      · intro d' hd'
        rcases List.mem_cons.mp hd' with h | h
        · obtain ⟨h1, h2⟩ := Prod.mk.injEq .. ▸ h
          obtain h3 := Option.some.inj h2
          subst h1
          exact hd h3.symm
        · exact he d' _ h rfl

theorem mapExcept_ok_getD {α β ε : Type} (f : α → Except ε β) (da : α) (db : β) :
    ∀ (l : List α) (bs : List β), mapExcept f l = .ok bs →
      bs.length = l.length ∧
      ∀ k, k < l.length → f (l.getD k da) = .ok (bs.getD k db) := by
  intro l
  induction l with
  | nil =>
    intro bs h
    cases Except.ok.inj h
    exact ⟨rfl, fun k hk => absurd hk (by simp)⟩
  | cons a l ih =>
    intro bs h
    cases hfa : f a with
    | error e => simp [mapExcept, hfa] at h
    | ok b =>
      cases hml : mapExcept f l with
      | error e => simp [mapExcept, hfa, hml] at h
      | ok bs' =>
        simp only [mapExcept, hfa, hml] at h
        obtain rfl := Except.ok.inj h
        obtain ⟨hlen, hidx⟩ := ih bs' hml
        refine ⟨by simp [hlen], ?_⟩
        intro k hk
        cases k with
        | zero => simpa using hfa
        | succ k => simpa using hidx k (by simpa using hk)

/-- C3: in a successful summary, the returned max-dates are the per-symbol
`idxmax` results; and for any date-sorted column with at least one
non-missing cell, the `idxmax` date attains the column maximum, and is the
earliest date doing so when several dates share the maximum. -/
theorem C3_argmax_earliest_date :
    (∀ syms (t : Table) maxs fechas proms rms,
      resumen_list_comprehensions syms t = .ok (maxs, fechas, proms, rms) →
      ∀ k, k < syms.length →
        colIdxmax (syms.getD k "") (seriesOf t (syms.getD k "")) = .ok (fechas.getD k 0)) ∧
    (∀ (sym : String) (col : List (Nat × Option ℚ)),
      ((col.map Prod.fst).Pairwise (· < ·)) →
      (∃ p ∈ col, p.2.isSome) →
      ∃ d m, colIdxmax sym col = .ok d ∧ (d, some m) ∈ col ∧
        (∀ d' v', (d', some v') ∈ col → v' ≤ m) ∧
        (∀ d', (d', some m) ∈ col → d ≤ d')) := by
  constructor
  · intro syms t maxs fechas proms rms h k hk
    unfold resumen_list_comprehensions at h
    cases hm1 : mapExcept (fun s => colIdxmax s (seriesOf t s)) syms with
    | error e =>
      rw [hm1] at h
      simp at h
    | ok fechas0 =>
      rw [hm1] at h
      cases hm2 : mapExcept (fun s => recordOf t s) syms with
      | error e =>
        rw [hm2] at h
        simp at h
      | ok rm0 =>
        rw [hm2] at h
        simp only [] at h
        have htup := Except.ok.inj h
        have hf : fechas0 = fechas := congrArg (fun q => q.2.1) htup
        subst hf
        exact (mapExcept_ok_getD _ "" 0 syms fechas0 hm1).2 k hk
  · exact fun sym col hs hex => colIdxmax_spec sym col hs hex

/-- Witness for C3 at a concrete column with a tied maximum. -/
theorem C3_witness :
    ∃ d m, colIdxmax "A" [(0, some (5:ℚ)), (1, some 5)] = .ok d ∧
      (d, some m) ∈ [(0, some (5:ℚ)), (1, some 5)] ∧
      (∀ d' v', (d', some v') ∈ [(0, some (5:ℚ)), (1, some 5)] → v' ≤ m) ∧
      (∀ d', (d', some m) ∈ [(0, some (5:ℚ)), (1, some 5)] → d ≤ d') :=
  C3_argmax_earliest_date.2 "A" [(0, some 5), (1, some 5)] (by decide) (by decide)
